import Mathlib

/-!
# Verification of the libstephen hash-mapping engine and bitfield

This file gives a shallow embedding of the hash-table engine and the
bitfield utility of the libstephen repository, and proves the testable
properties stated in the specification against that embedding.

The bitfield operations (`bf_check`, `bf_flip`, ...) are translated
directly from `bitfield.c`.  The hash-table implementation file is not
part of the provided sources (only its header declarations in
`libstephen.h` / `base.h` and its test-suite `hashtabletest.c` are), so
the engine (`ht_create`, `ht_insert`, `ht_get`, `ht_remove`,
`ht_remove_act`, `ht_delete_act`, `ht_resize`) is modelled from the
specification, as noted on each definition.

Keys and values are the opaque tagged scalar `DATA`, which the engine
never interprets; accordingly the model is parametric in the payload
type, written `DATA` throughout.
-/

set_option linter.unusedVariables false

/-- The status enumeration, translated from `base.h` (`smb_status`). -/
inductive smb_status where
  | SMB_SUCCESS
  | SMB_ALLOCATION_ERROR
  | SMB_INDEX_ERROR
  | SMB_NOT_FOUND_ERROR
  | SMB_STOP_ITERATION
deriving DecidableEq, Repr

open smb_status

/-- Translated from `libstephen.h`: `#define HASH_TABLE_INITIAL_SIZE 257`
(a prime number close to 256). -/
def HASH_TABLE_INITIAL_SIZE : Nat := 257

/-- Modelled from the spec: the hash table structure.  `libstephen.h`
declares `struct hash_table` with fields `length`, `allocated`, a hash
function and the bucket array; the test suite's `smb_ht` additionally
stores the comparator passed at creation.  Buckets are chains of
(key, value) entries; the chain head is the most recently linked entry. -/
structure smb_ht (DATA : Type) where
  length : Nat
  allocated : Nat
  hash : DATA → Nat
  comp : DATA → DATA → Int
  table : List (List (DATA × DATA))

/-- The bucket (chain head) at index `i`; an index outside the array reads
as an empty chain. -/
def ht_bucket {DATA : Type} (t : smb_ht DATA) (i : Nat) : List (DATA × DATA) :=
  t.table.getD i []

/-- All live entries of the table, in bucket-index order then chain order. -/
def ht_entries {DATA : Type} (t : smb_ht DATA) : List (DATA × DATA) :=
  t.table.flatten

/-- Modelled from the spec (§4.2 insert, lookup walk): walk a chain
comparing keys with the equality facet of the comparator and return the
first equal key's value. -/
def ht_find_chain {DATA : Type} (comp : DATA → DATA → Int) (key : DATA) :
    List (DATA × DATA) → Option DATA
  | [] => none
  | e :: rest => if comp key e.1 = 0 then some e.2 else ht_find_chain comp key rest

/-- Modelled from the spec (§4.2): overwrite the value of the first entry
of the chain whose key is equal to `key`, in place. -/
def ht_overwrite_chain {DATA : Type} (comp : DATA → DATA → Int) (key value : DATA) :
    List (DATA × DATA) → List (DATA × DATA)
  | [] => []
  | e :: rest =>
    if comp key e.1 = 0 then (e.1, value) :: rest
    else e :: ht_overwrite_chain comp key value rest

/-- Modelled from the spec (§4.4): unlink the first entry of the chain
whose key is equal to `key`, returning the removed entry (if any) and the
remaining chain. -/
def ht_remove_chain {DATA : Type} (comp : DATA → DATA → Int) (key : DATA) :
    List (DATA × DATA) → Option (DATA × DATA) × List (DATA × DATA)
  | [] => (none, [])
  | e :: rest =>
    if comp key e.1 = 0 then (some e, rest)
    else
      let r := ht_remove_chain comp key rest
      (r.1, e :: r.2)

/-- Whether some entry of the chain has a key equal to `key` under `comp`. -/
def ht_chain_contains {DATA : Type} (comp : DATA → DATA → Int) (key : DATA)
    (chain : List (DATA × DATA)) : Bool :=
  chain.any (fun e => decide (comp key e.1 = 0))

/-- Whether `key` is present in the table: its bucket's chain holds an
entry with an equal key. -/
def ht_contains {DATA : Type} (t : smb_ht DATA) (key : DATA) : Bool :=
  ht_chain_contains t.comp key (ht_bucket t (t.hash key % t.allocated))

/-- Modelled from the spec (§4.1 construction, §7): `ht_create(hash_fn,
compare_fn, &status)`.  Both function references are mandatory
parameters.  The `allocOk` flag stands for the allocation service
obtaining the bucket array: on success the table has the fixed initial
prime capacity 257, all slots empty and length 0; on allocation failure
no table is returned and `SMB_ALLOCATION_ERROR` is reported. -/
def ht_create {DATA : Type} (hash : DATA → Nat) (comp : DATA → DATA → Int)
    (allocOk : Bool) : Option (smb_ht DATA) × smb_status :=
  if allocOk then
    (some { length := 0, allocated := HASH_TABLE_INITIAL_SIZE, hash := hash,
            comp := comp, table := List.replicate HASH_TABLE_INITIAL_SIZE [] },
     SMB_SUCCESS)
  else (none, SMB_ALLOCATION_ERROR)

/-- Modelled from the spec (§4.2 growth, §9): allocate a strictly larger
bucket array — roughly double, biased toward a prime-like (odd) size —
and re-insert every existing entry by recomputing `hash(key) mod` the new
capacity.  The exact post-growth capacity is not part of the observable
contract; the model uses `2 * allocated + 1`. -/
def ht_resize {DATA : Type} (t : smb_ht DATA) : smb_ht DATA :=
  let newAlloc := 2 * t.allocated + 1
  { t with
    allocated := newAlloc,
    table := (List.range newAlloc).map
      (fun j => (ht_entries t).filter (fun e => t.hash e.1 % newAlloc == j)) }

/-- Modelled from the spec (§4.2): the new-entry step of insert.  A new
entry holding `(key, value)` is allocated and linked at the head of the
chain of bucket `hash(key) mod allocated`, and the length is
incremented. -/
def ht_insert_raw {DATA : Type} (t : smb_ht DATA) (key value : DATA) : smb_ht DATA :=
  { t with
    table := t.table.set (t.hash key % t.allocated)
      ((key, value) :: ht_bucket t (t.hash key % t.allocated)),
    length := t.length + 1 }

/-- Modelled from the spec (§4.2 insert, §7, §8): compute `hash(key) mod
allocated` and walk that chain.  An equal key is overwritten in place
(length unchanged, no growth check).  Otherwise a new entry is linked at
the chain head and the length incremented; growth triggers when the
insertion pushes the length strictly above `1 + ⌊0.7 · allocated⌋` — the
"last stable" count of §8, under which the 180th distinct insert at
capacity 257 leaves the capacity unchanged and the 181st triggers growth.
`entryAlloc` and `resizeAlloc` stand for the allocation service
satisfying the entry and the grown-array requests: a failed entry
allocation leaves the table unchanged with `SMB_ALLOCATION_ERROR`; a
failed growth reports `SMB_ALLOCATION_ERROR` but keeps the just-inserted
entry and the old capacity (§7: non-fatal, retried on a later insert). -/
def ht_insert {DATA : Type} (t : smb_ht DATA) (key value : DATA)
    (entryAlloc resizeAlloc : Bool) : smb_ht DATA × smb_status :=
  let i := t.hash key % t.allocated
  let chain := ht_bucket t i
  if ht_chain_contains t.comp key chain then
    ({ t with table := t.table.set i (ht_overwrite_chain t.comp key value chain) },
     SMB_SUCCESS)
  else if entryAlloc = false then (t, SMB_ALLOCATION_ERROR)
  else
    let t1 : smb_ht DATA := ht_insert_raw t key value
    if t1.length > 1 + 7 * t1.allocated / 10 then
      if resizeAlloc then (ht_resize t1, SMB_SUCCESS)
      else (t1, SMB_ALLOCATION_ERROR)
    else (t1, SMB_SUCCESS)

/-- Modelled from the spec (§4.4): locate the entry as in lookup; if
found, unlink it, decrement length and invoke `on_delete` on its value
exactly once.  The third component is the list of values the callback was
invoked on.  If absent, `SMB_NOT_FOUND_ERROR` and no structural change. -/
def ht_remove_act {DATA : Type} (t : smb_ht DATA) (key : DATA) :
    smb_ht DATA × smb_status × List DATA :=
  let i := t.hash key % t.allocated
  let r := ht_remove_chain t.comp key (ht_bucket t i)
  match r.1 with
  | some e =>
    ({ t with table := t.table.set i r.2, length := t.length - 1 },
     SMB_SUCCESS, [e.2])
  | none => (t, SMB_NOT_FOUND_ERROR, [])

/-- Modelled from the spec (§4.4): `ht_remove` is the callback-free
variant of `ht_remove_act`. -/
def ht_remove {DATA : Type} (t : smb_ht DATA) (key : DATA) :
    smb_ht DATA × smb_status :=
  ((ht_remove_act t key).1, (ht_remove_act t key).2.1)

/-- Modelled from the spec (§4.5 teardown): the callback variant of
teardown invokes `on_delete` exactly once per currently-live value,
visiting bucket-index order then chain order.  The result is the list of
values the callback is invoked on. -/
def ht_delete_act {DATA : Type} (t : smb_ht DATA) : List DATA :=
  (ht_entries t).map Prod.snd

/-- Modelled from the spec (§4.3 lookup): compute `hash(key) mod
allocated` and walk the chain with the comparator; the first equal key's
value is returned with success status.  If absent, no value is returned
and the not-found status is set. -/
def ht_get {DATA : Type} (t : smb_ht DATA) (key : DATA) :
    Option DATA × smb_status :=
  match ht_find_chain t.comp key (ht_bucket t (t.hash key % t.allocated)) with
  | some v => (some v, SMB_SUCCESS)
  | none => (none, SMB_NOT_FOUND_ERROR)

/-- Fold a sequence of `ht_insert` calls (all allocations succeeding)
over the table, in order. -/
def ht_insert_list {DATA : Type} : smb_ht DATA → List (DATA × DATA) → smb_ht DATA
  | t, [] => t
  | t, p :: ps => ht_insert_list (ht_insert t p.1 p.2 true true).1 ps

/-- Fold a sequence of `ht_remove_act` calls over the table, in order,
accumulating the callback invocations. -/
def ht_remove_list {DATA : Type} : smb_ht DATA → List DATA → smb_ht DATA × List DATA
  | t, [] => (t, [])
  | t, k :: ks =>
    let r := ht_remove_act t k
    let rest := ht_remove_list r.1 ks
    (rest.1, r.2.2 ++ rest.2)

/-- Well-formedness of a table: the bucket array has exactly `allocated`
slots (a positive number), the `length` field counts the live entries,
and every entry sits in the bucket determined by its key's hash modulo
the capacity. -/
def ht_wf {DATA : Type} (t : smb_ht DATA) : Prop :=
  t.table.length = t.allocated ∧ 0 < t.allocated ∧
  t.length = (ht_entries t).length ∧
  ∀ i, i < t.table.length → ∀ e ∈ ht_bucket t i, t.hash e.1 % t.allocated = i

instance {DATA : Type} [DecidableEq DATA] (t : smb_ht DATA) :
    Decidable (ht_wf t) := by
  unfold ht_wf; infer_instance

/-! ## Bitfield, translated from `bitfield.c` -/

/-- The number of bits in an `unsigned char` (`BIT_PER_CHAR` in the
repository's header, which is not among the provided sources): 8. -/
def BIT_PER_CHAR : Nat := 8

/-- Translated from `bitfield.c` (`bf_init`): a bitfield of `size` bytes
initialized to all zeroes. -/
def bf_init (size : Nat) : List Nat :=
  List.replicate size 0

/-- Translated from `bitfield.c` (`bf_check`): test the bit at `index`.
The byte holding the bit is `index / BIT_PER_CHAR`; the mask is
`0x01 << (index % BIT_PER_CHAR)` converted to `unsigned char`.  Returns
`data[byte_index] & bit_mask`: zero when the bit is clear, nonzero when
set. -/
def bf_check (data : List Nat) (index : Nat) : Nat :=
  let byte_index := index / BIT_PER_CHAR
  let bit_mask := (1 <<< (index % BIT_PER_CHAR)) % 256
  (data.getD byte_index 0) &&& bit_mask

/-- Translated from `bitfield.c` (`bf_set`). -/
def bf_set (data : List Nat) (index : Nat) : List Nat :=
  let byte_index := index / BIT_PER_CHAR
  let bit_mask := (1 <<< (index % BIT_PER_CHAR)) % 256
  data.set byte_index (((data.getD byte_index 0) ||| bit_mask) % 256)

/-- Translated from `bitfield.c` (`bf_clear`): `data[i] &= ~bit_mask`,
with the complement taken at `int` width (32 bits, value `2^32 - 1 -
bit_mask`) and the result stored back into an `unsigned char`. -/
def bf_clear (data : List Nat) (index : Nat) : List Nat :=
  let byte_index := index / BIT_PER_CHAR
  let bit_mask := (1 <<< (index % BIT_PER_CHAR)) % 256
  data.set byte_index (((data.getD byte_index 0) &&& (4294967295 - bit_mask)) % 256)

/-- Translated from `bitfield.c` (`bf_flip`): with `b = data[byte_index]`,
compute `value = ~(b & bit_mask) & bit_mask` (complement at 32-bit `int`
width, `~x = 2^32 - 1 - x`) and store `(b & ~bit_mask) | value` back into
the byte. -/
def bf_flip (data : List Nat) (index : Nat) : List Nat :=
  let byte_index := index / BIT_PER_CHAR
  let bit_mask := (1 <<< (index % BIT_PER_CHAR)) % 256
  let b := data.getD byte_index 0
  let value := (4294967295 - (b &&& bit_mask)) &&& bit_mask
  data.set byte_index (((b &&& (4294967295 - bit_mask)) ||| value) % 256)

/-- Modelled from the spec (§4.2): the table after an in-place overwrite
of the first equal key in the bucket of `key`. -/
def ht_overwrite_table {DATA : Type} (t : smb_ht DATA) (key value : DATA) : smb_ht DATA :=
  { t with
    table := t.table.set (t.hash key % t.allocated)
      (ht_overwrite_chain t.comp key value
        (ht_bucket t (t.hash key % t.allocated))) }

/-- Modelled from the spec (§4.4): the table after unlinking the first
entry equal to `key` in its bucket and decrementing the length. -/
def ht_remove_table {DATA : Type} (t : smb_ht DATA) (key : DATA) : smb_ht DATA :=
  { t with
    table := t.table.set (t.hash key % t.allocated)
      (ht_remove_chain t.comp key (ht_bucket t (t.hash key % t.allocated))).2,
    length := t.length - 1 }

/-- Translated from `base.h` / the test driver: the integer comparator
(`data_compare_int`) on `llint` payloads, returning zero exactly on equal
keys. -/
def data_compare_int (d1 d2 : Int) : Int := d1 - d2

/-- Translated from `hashtabletest.c` (`ht_test_linear_hash`): the key's
integer payload cast to an unsigned integer. -/
def ht_test_linear_hash (d : Int) : Nat := d.toNat

/-- Translated from `hashtabletest.c` (`ht_test_constant_hash`): a
deliberately bad hash that sends every key to 4. -/
def ht_test_constant_hash (_ : Int) : Nat := 4

/-- The table produced by a successful `ht_create` with the linear hash
and the integer comparator. -/
def ht_test_table : smb_ht Int :=
  { length := 0, allocated := HASH_TABLE_INITIAL_SIZE, hash := ht_test_linear_hash,
    comp := data_compare_int, table := List.replicate HASH_TABLE_INITIAL_SIZE [] }

/-- The 181 distinct key/value pairs `(i, -i)` used by the resize test. -/
def ht_test_pairs : List (Int × Int) :=
  (List.range 181).map (fun n => (Int.ofNat n, -Int.ofNat n))

/-- A small well-formed three-bucket table over `Int` holding the single
entry `(1, 5)`, used by several witnesses. -/
def ht_test_small : smb_ht Int :=
  { length := 1, allocated := 3, hash := ht_test_linear_hash,
    comp := data_compare_int, table := [[], [(1, 5)], []] }

/-- The table produced by a successful `ht_create` with the constant
(all-colliding) hash and the integer comparator, as in the buckets test. -/
def ht_test_const_table : smb_ht Int :=
  { length := 0, allocated := HASH_TABLE_INITIAL_SIZE, hash := ht_test_constant_hash,
    comp := data_compare_int, table := List.replicate HASH_TABLE_INITIAL_SIZE [] }

/-- The 20 distinct key/value pairs `(i, -i)` of the buckets test. -/
def ht_c6_pairs : List (Int × Int) :=
  (List.range 20).map (fun n => (Int.ofNat n, -Int.ofNat n))

/-- The buckets-test table after inserting the 20 pairs under the
constant hash and then removing the 11th-inserted key (10), the
1st-inserted (0) and the 20th-inserted (19). -/
def ht_c6_final : smb_ht Int :=
  (ht_remove_list (ht_insert_list ht_test_const_table ht_c6_pairs)
    [(10 : Int), 0, 19]).1

/-- A well-formed two-bucket table over `Int` already at the growth
threshold, used to witness the growth-failure claim. -/
def ht_test_full : smb_ht Int :=
  { length := 2, allocated := 2, hash := ht_test_linear_hash,
    comp := data_compare_int, table := [[(0, 7)], [(1, 8)]] }

/-! ## List helper lemmas -/

lemma getD_set_self {α : Type} (l : List α) (i : Nat) (c d : α) (h : i < l.length) :
    (l.set i c).getD i d = c := by
  rw [List.getD_eq_getElem _ _ (by simpa using h), List.getElem_set]
  simp

lemma getD_set_ne {α : Type} (l : List α) (i j : Nat) (c d : α) (hne : i ≠ j) :
    (l.set i c).getD j d = l.getD j d := by
  by_cases hj : j < l.length
  · rw [List.getD_eq_getElem _ _ (by simpa using hj), List.getD_eq_getElem _ _ hj,
      List.getElem_set]
    simp [hne]
  · rw [List.getD_eq_default _ _ (by simpa using Nat.le_of_not_lt hj),
      List.getD_eq_default _ _ (Nat.le_of_not_lt hj)]

lemma set_getD_self {α : Type} (l : List α) (i : Nat) (d : α) (h : i < l.length) :
    l.set i (l.getD i d) = l := by
  apply List.ext_getElem (by simp)
  intro n h1 h2
  rw [List.getElem_set]
  split
  · rename_i heq
    subst heq
    rw [List.getD_eq_getElem _ _ h]
  · rfl

/-! ## Bitfield lemmas -/

set_option maxRecDepth 10000

lemma BIT_PER_CHAR_eq : BIT_PER_CHAR = 8 := rfl

lemma bf_flip_byte_xor :
    ∀ b < 256, ∀ k < 8,
      ((b &&& (4294967295 - ((1 <<< k) % 256))) |||
        ((4294967295 - (b &&& ((1 <<< k) % 256))) &&& ((1 <<< k) % 256))) % 256
        = b ^^^ (1 <<< k) := by decide

lemma bf_single_bit : ∀ b < 256, ∀ k < 8,
    b &&& (1 <<< k) = 0 ∨ b &&& (1 <<< k) = 1 <<< k := by decide

lemma bf_masks_disjoint : ∀ k < 8, ∀ j < 8, k ≠ j →
    (1 <<< k) &&& (1 <<< j) = 0 := by decide

lemma bf_mask_facts : ∀ k < 8,
    (1 <<< k) % 256 = 1 <<< k ∧ 1 <<< k < 256 ∧ 0 < 1 <<< k := by decide

/-- A flip rewrites the addressed byte to its XOR with the single-bit
mask, provided the byte is a byte (< 256). -/
lemma bf_flip_eq_set_xor (data : List Nat) (index : Nat)
    (hb : data.getD (index / BIT_PER_CHAR) 0 < 256) :
    bf_flip data index =
      data.set (index / BIT_PER_CHAR)
        (data.getD (index / BIT_PER_CHAR) 0 ^^^ (1 <<< (index % BIT_PER_CHAR))) := by
  have hk : index % BIT_PER_CHAR < 8 := Nat.mod_lt _ (by decide)
  simp only [bf_flip]
  congr 1
  exact bf_flip_byte_xor _ hb _ hk

/-- Claim C10: for every bitfield byte array and every in-range bit index,
calling `bf_flip` twice in succession with the same index restores the
bitfield to exactly its original contents, and a single `bf_flip`
changes only the addressed bit as observed by `bf_check`. -/
theorem bf_flip_involutive (data : List Nat) (index : Nat)
    (hbytes : ∀ b ∈ data, b < 256)
    (hrange : index / BIT_PER_CHAR < data.length) :
    bf_flip (bf_flip data index) index = data ∧
    (∀ j, j / BIT_PER_CHAR < data.length → j ≠ index →
      bf_check (bf_flip data index) j = bf_check data j) ∧
    (bf_check (bf_flip data index) index = 0 ↔ ¬ bf_check data index = 0) := by
  have hk8 : index % BIT_PER_CHAR < 8 := Nat.mod_lt _ (by decide)
  have hb : data.getD (index / BIT_PER_CHAR) 0 < 256 := by
    apply hbytes
    rw [List.getD_eq_getElem _ _ hrange]
    exact List.getElem_mem _
  have hmf := bf_mask_facts _ hk8
  set bi := index / BIT_PER_CHAR with hbidef
  set k := index % BIT_PER_CHAR with hkdef
  set b := data.getD bi 0 with hbdef
  set m := 1 <<< k with hmdef
  have hflip1 : bf_flip data index = data.set bi (b ^^^ m) :=
    bf_flip_eq_set_xor data index hb
  have hgetflip : (data.set bi (b ^^^ m)).getD bi 0 = b ^^^ m :=
    getD_set_self data bi _ 0 hrange
  have hxm : b ^^^ m < 256 := by
    have h8 : (256 : Nat) = 2 ^ 8 := by norm_num
    rw [h8]
    exact Nat.xor_lt_two_pow (h8 ▸ hb) (h8 ▸ hmf.2.1)
  refine ⟨?_, ?_, ?_⟩
  · -- double flip restores the original
    rw [hflip1]
    have hb2 : (data.set bi (b ^^^ m)).getD (index / BIT_PER_CHAR) 0 < 256 := by
      rw [← hbidef, hgetflip]; exact hxm
    rw [bf_flip_eq_set_xor _ _ hb2, ← hbidef, ← hkdef, ← hmdef, hgetflip,
      List.set_set, Nat.xor_assoc, Nat.xor_self, Nat.xor_zero, hbdef]
    exact set_getD_self data bi 0 hrange
  · -- all other bits are unchanged
    intro j hjr hjne
    have hkj : j % BIT_PER_CHAR < 8 := Nat.mod_lt _ (by decide)
    have hmj := bf_mask_facts _ hkj
    rw [hflip1]
    show (data.set bi (b ^^^ m)).getD (j / BIT_PER_CHAR) 0
        &&& ((1 <<< (j % BIT_PER_CHAR)) % 256)
      = data.getD (j / BIT_PER_CHAR) 0 &&& ((1 <<< (j % BIT_PER_CHAR)) % 256)
    rw [hmj.1]
    by_cases hbj : j / BIT_PER_CHAR = bi
    · -- same byte, different bit within the byte
      have hkne : k ≠ j % BIT_PER_CHAR := by
        intro heq
        apply hjne
        have e1 : BIT_PER_CHAR * (j / BIT_PER_CHAR) + j % BIT_PER_CHAR = j :=
          Nat.div_add_mod j BIT_PER_CHAR
        have e2 : BIT_PER_CHAR * (index / BIT_PER_CHAR) + index % BIT_PER_CHAR = index :=
          Nat.div_add_mod index BIT_PER_CHAR
        rw [← e1, ← e2, hbj, ← hbidef, ← hkdef, ← heq]
      rw [hbj, hgetflip, Nat.and_xor_distrib_right,
        bf_masks_disjoint k hk8 _ hkj hkne, Nat.xor_zero]
    · rw [getD_set_ne data bi _ _ 0 (fun h => hbj h.symm)]
  · -- the addressed bit is toggled
    rw [hflip1]
    show (data.set bi (b ^^^ m)).getD bi 0 &&& ((1 <<< k) % 256) = 0
      ↔ ¬ (data.getD bi 0 &&& ((1 <<< k) % 256) = 0)
    rw [hgetflip, hmf.1, Nat.and_xor_distrib_right, Nat.and_self]
    have hmne : m ≠ 0 := Nat.pos_iff_ne_zero.mp hmf.2.2
    rcases bf_single_bit b hb k hk8 with h0 | h1
    · rw [← hmdef] at h0
      rw [h0, Nat.zero_xor]
      simp [hmne]
    · rw [← hmdef] at h1
      rw [h1, Nat.xor_self]
      simp [hmne]

/-- Witness for `bf_flip_involutive` at the concrete bitfield `[5]` and
bit index 1. -/
theorem bf_flip_involutive_witness :
    bf_flip (bf_flip [5] 1) 1 = [5] ∧
    (∀ j, j / BIT_PER_CHAR < 1 → j ≠ 1 →
      bf_check (bf_flip [5] 1) j = bf_check [5] j) ∧
    (bf_check (bf_flip [5] 1) 1 = 0 ↔ ¬ bf_check [5] 1 = 0) := by
  have h := bf_flip_involutive [5] 1 (by decide) (by decide)
  simpa using h

/-! ## Chain-level lemmas -/

lemma ht_chain_contains_iff {DATA : Type} (comp : DATA → DATA → Int) (key : DATA)
    (chain : List (DATA × DATA)) :
    ht_chain_contains comp key chain = true ↔ ∃ e ∈ chain, comp key e.1 = 0 := by
  simp [ht_chain_contains, List.any_eq_true]

lemma ht_find_chain_eq_none {DATA : Type} (comp : DATA → DATA → Int) (key : DATA)
    (chain : List (DATA × DATA)) (h : ∀ e ∈ chain, comp key e.1 ≠ 0) :
    ht_find_chain comp key chain = none := by
  induction chain with
  | nil => rfl
  | cons e rest ih =>
    rw [ht_find_chain, if_neg (h e (List.mem_cons_self e rest))]
    exact ih (fun x hx => h x (List.mem_cons_of_mem e hx))

lemma ht_find_chain_unique {DATA : Type} (comp : DATA → DATA → Int) (k v : DATA)
    (chain : List (DATA × DATA)) (hmem : (k, v) ∈ chain) (hrefl : comp k k = 0)
    (huniq : ∀ e ∈ chain, comp k e.1 = 0 → e = (k, v)) :
    ht_find_chain comp k chain = some v := by
  induction chain with
  | nil => cases hmem
  | cons e rest ih =>
    rw [ht_find_chain]
    by_cases he : comp k e.1 = 0
    · rw [if_pos he]
      have : e = (k, v) := huniq e (List.mem_cons_self e rest) he
      rw [this]
    · rw [if_neg he]
      have hmem2 : (k, v) ∈ rest := by
        rcases List.mem_cons.mp hmem with h | h
        · exact absurd (show comp k e.1 = 0 by rw [← h]; exact hrefl) he
        · exact h
      exact ih hmem2 (fun x hx hc => huniq x (List.mem_cons_of_mem e hx) hc)

lemma ht_find_overwrite {DATA : Type} (comp : DATA → DATA → Int) (key v : DATA)
    (chain : List (DATA × DATA)) (h : ∃ e ∈ chain, comp key e.1 = 0) :
    ht_find_chain comp key (ht_overwrite_chain comp key v chain) = some v := by
  induction chain with
  | nil => simp at h
  | cons e rest ih =>
    rw [ht_overwrite_chain]
    by_cases he : comp key e.1 = 0
    · rw [if_pos he, ht_find_chain, if_pos he]
    · rw [if_neg he, ht_find_chain, if_neg he]
      apply ih
      rcases h with ⟨x, hx, hc⟩
      rcases List.mem_cons.mp hx with h1 | h1
      · exact absurd (h1 ▸ hc) he
      · exact ⟨x, h1, hc⟩

lemma ht_overwrite_chain_length {DATA : Type} (comp : DATA → DATA → Int)
    (key v : DATA) (chain : List (DATA × DATA)) :
    (ht_overwrite_chain comp key v chain).length = chain.length := by
  induction chain with
  | nil => rfl
  | cons e rest ih =>
    rw [ht_overwrite_chain]
    by_cases he : comp key e.1 = 0
    · rw [if_pos he]; simp
    · rw [if_neg he]; simp [ih]

lemma ht_overwrite_chain_keys {DATA : Type} (comp : DATA → DATA → Int)
    (key v : DATA) (chain : List (DATA × DATA)) :
    ∀ x ∈ ht_overwrite_chain comp key v chain, ∃ e ∈ chain, x.1 = e.1 := by
  induction chain with
  | nil => intro x hx; simp [ht_overwrite_chain] at hx
  | cons e rest ih =>
    intro x hx
    rw [ht_overwrite_chain] at hx
    by_cases he : comp key e.1 = 0
    · rw [if_pos he] at hx
      rcases List.mem_cons.mp hx with h1 | h1
      · exact ⟨e, List.mem_cons_self e rest, by rw [h1]⟩
      · exact ⟨x, List.mem_cons_of_mem e h1, rfl⟩
    · rw [if_neg he] at hx
      rcases List.mem_cons.mp hx with h1 | h1
      · exact ⟨e, List.mem_cons_self e rest, by rw [h1]⟩
      · rcases ih x h1 with ⟨e2, he2, hk⟩
        exact ⟨e2, List.mem_cons_of_mem e he2, hk⟩

lemma ht_remove_chain_none {DATA : Type} (comp : DATA → DATA → Int) (key : DATA)
    (chain : List (DATA × DATA)) (h : ∀ e ∈ chain, comp key e.1 ≠ 0) :
    ht_remove_chain comp key chain = (none, chain) := by
  induction chain with
  | nil => rfl
  | cons e rest ih =>
    rw [ht_remove_chain, if_neg (h e (List.mem_cons_self e rest))]
    rw [ih (fun x hx => h x (List.mem_cons_of_mem e hx))]

lemma ht_remove_chain_found {DATA : Type} (comp : DATA → DATA → Int) (key : DATA)
    (chain : List (DATA × DATA)) (h : ∃ e ∈ chain, comp key e.1 = 0) :
    ∃ e, comp key e.1 = 0 ∧ e ∈ chain ∧
      (ht_remove_chain comp key chain).1 = some e ∧
      chain.Perm (e :: (ht_remove_chain comp key chain).2) ∧
      (∀ x ∈ (ht_remove_chain comp key chain).2, x ∈ chain) ∧
      (∀ x ∈ chain, comp key x.1 ≠ 0 → x ∈ (ht_remove_chain comp key chain).2) := by
  induction chain with
  | nil => simp at h
  | cons a rest ih =>
    by_cases ha : comp key a.1 = 0
    · refine ⟨a, ha, List.mem_cons_self a rest, ?_, ?_, ?_, ?_⟩
      · rw [ht_remove_chain, if_pos ha]
      · rw [ht_remove_chain, if_pos ha]
      · rw [ht_remove_chain, if_pos ha]
        intro x hx
        exact List.mem_cons_of_mem a hx
      · rw [ht_remove_chain, if_pos ha]
        intro x hx hc
        rcases List.mem_cons.mp hx with h1 | h1
        · exact absurd (h1 ▸ ha) hc
        · exact h1
    · have hrest : ∃ e ∈ rest, comp key e.1 = 0 := by
        rcases h with ⟨x, hx, hc⟩
        rcases List.mem_cons.mp hx with h1 | h1
        · exact absurd (h1 ▸ hc) ha
        · exact ⟨x, h1, hc⟩
      rcases ih hrest with ⟨e, hce, hme, hfst, hperm, hsub, hkeep⟩
      refine ⟨e, hce, List.mem_cons_of_mem a hme, ?_, ?_, ?_, ?_⟩
      · rw [ht_remove_chain, if_neg ha]
        exact hfst
      · rw [ht_remove_chain, if_neg ha]
        show (a :: rest).Perm (e :: a :: (ht_remove_chain comp key rest).2)
        exact (hperm.cons a).trans (List.Perm.swap e a _)
      · rw [ht_remove_chain, if_neg ha]
        intro x hx
        rcases List.mem_cons.mp hx with h1 | h1
        · rw [h1]; exact List.mem_cons_self a rest
        · exact List.mem_cons_of_mem a (hsub x h1)
      · rw [ht_remove_chain, if_neg ha]
        intro x hx hc
        rcases List.mem_cons.mp hx with h1 | h1
        · rw [h1]; exact List.mem_cons_self a _
        · exact List.mem_cons_of_mem a (hkeep x h1 hc)

/-! ## Bucket-array (flatten) lemmas -/

lemma flatten_getD_set {α : Type} (l : List (List α)) (i : Nat) (h : i < l.length) :
    l.flatten.Perm (l.getD i [] ++ (l.set i []).flatten) := by
  induction l generalizing i with
  | nil => cases h
  | cons c rest ih =>
    cases i with
    | zero => simp
    | succ i =>
      have h2 : i < rest.length := Nat.lt_of_succ_lt_succ h
      have hstep : (c ++ (rest.getD i [] ++ (rest.set i []).flatten)).Perm
          (rest.getD i [] ++ (c ++ (rest.set i []).flatten)) := by
        rw [← List.append_assoc, ← List.append_assoc]
        exact List.Perm.append_right _ List.perm_append_comm
      simpa using ((ih i h2).append_left c).trans hstep

lemma flatten_set_perm {α : Type} (l : List (List α)) (i : Nat) (c : List α)
    (h : i < l.length) :
    (l.set i c).flatten.Perm (c ++ (l.set i []).flatten) := by
  have h2 : i < (l.set i c).length := by simpa using h
  have hp := flatten_getD_set (l.set i c) i h2
  rwa [getD_set_self l i c [] h, List.set_set] at hp

/-! ## Well-formedness accessors -/

lemma ht_index_lt {DATA : Type} (t : smb_ht DATA) (hwf : ht_wf t) (key : DATA) :
    t.hash key % t.allocated < t.table.length := by
  rw [hwf.1]
  exact Nat.mod_lt _ hwf.2.1

lemma ht_mem_bucket_entries {DATA : Type} (t : smb_ht DATA) (i : Nat)
    (e : DATA × DATA) (he : e ∈ ht_bucket t i) : e ∈ ht_entries t := by
  by_cases h : i < t.table.length
  · rw [ht_bucket, List.getD_eq_getElem _ _ h] at he
    exact List.mem_flatten.mpr ⟨_, List.getElem_mem h, he⟩
  · rw [ht_bucket, List.getD_eq_default _ _ (Nat.le_of_not_lt h)] at he
    cases he

lemma ht_entries_mem_bucket {DATA : Type} (t : smb_ht DATA) (hwf : ht_wf t)
    (e : DATA × DATA) (he : e ∈ ht_entries t) :
    e ∈ ht_bucket t (t.hash e.1 % t.allocated) := by
  rcases List.mem_flatten.mp he with ⟨c, hc, hec⟩
  rcases List.mem_iff_getElem.mp hc with ⟨n, hn, hcn⟩
  have hb : ht_bucket t n = c := by
    rw [ht_bucket, List.getD_eq_getElem _ _ hn, hcn]
  have := hwf.2.2.2 n hn e (by rw [hb]; exact hec)
  rw [this, hb]
  exact hec

lemma ht_contains_iff {DATA : Type} (t : smb_ht DATA) (key : DATA) :
    ht_contains t key = true ↔
      ∃ e ∈ ht_bucket t (t.hash key % t.allocated), t.comp key e.1 = 0 := by
  rw [ht_contains, ht_chain_contains_iff]

lemma ht_contains_entries {DATA : Type} (t : smb_ht DATA) (key : DATA)
    (h : ht_contains t key = true) : ∃ e ∈ ht_entries t, t.comp key e.1 = 0 := by
  rcases (ht_contains_iff t key).mp h with ⟨e, he, hc⟩
  exact ⟨e, ht_mem_bucket_entries t _ e he, hc⟩

lemma ht_not_contains {DATA : Type} (t : smb_ht DATA) (key : DATA)
    (h : ∀ e ∈ ht_entries t, t.comp key e.1 ≠ 0) : ht_contains t key = false := by
  rw [Bool.eq_false_iff]
  intro hc
  rcases ht_contains_entries t key hc with ⟨e, he, hce⟩
  exact h e he hce

/-- The central lookup lemma: if the table is well-formed and `(k, v)` is
the only live entry whose key compares equal to `k`, then `ht_get`
retrieves `v` with success status. -/
lemma ht_get_of_unique {DATA : Type} (t : smb_ht DATA) (k v : DATA)
    (hwf : ht_wf t) (hmem : (k, v) ∈ ht_entries t) (hrefl : t.comp k k = 0)
    (huniq : ∀ e ∈ ht_entries t, t.comp k e.1 = 0 → e = (k, v)) :
    ht_get t k = (some v, SMB_SUCCESS) := by
  have hb : (k, v) ∈ ht_bucket t (t.hash k % t.allocated) :=
    ht_entries_mem_bucket t hwf (k, v) hmem
  rw [ht_get, ht_find_chain_unique t.comp k v _ hb hrefl
    (fun e he hc => huniq e (ht_mem_bucket_entries t _ e he) hc)]

/-! ## Rehash partition lemmas -/

lemma count_range_self (m N : Nat) (h : m < N) : (List.range N).count m = 1 := by
  induction N with
  | zero => cases h
  | succ n ih =>
    rw [List.range_succ, List.count_append]
    by_cases hm : m < n
    · rw [ih hm]
      have hne : m ≠ n := Nat.ne_of_lt hm
      simp [hne]
    · have hmn : m = n := Nat.eq_of_lt_succ_of_not_lt h hm
      subst hmn
      have hz : (List.range m).count m = 0 := by
        rw [List.count_eq_zero]
        simp
      rw [hz]
      simp


lemma flatten_filter_cons_perm {α : Type} (js : List Nat) (a : α) (E : List α)
    (f : α → Nat) (hcount : js.count (f a) = 1) :
    ((js.map (fun j => (a :: E).filter (fun e => f e == j))).flatten).Perm
      (a :: (js.map (fun j => E.filter (fun e => f e == j))).flatten) := by
  induction js with
  | nil => simp at hcount
  | cons j js ih =>
    by_cases hj : f a = j
    · subst hj
      have hz : js.count (f a) = 0 := by
        rw [List.count_cons] at hcount
        simpa using hcount
      have hnot : f a ∉ js := List.count_eq_zero.mp hz
      have hhead : (a :: E).filter (fun e => f e == f a) =
          a :: E.filter (fun e => f e == f a) := by
        rw [List.filter_cons]
        simp
      have htail : js.map (fun j => (a :: E).filter (fun e => f e == j)) =
          js.map (fun j => E.filter (fun e => f e == j)) := by
        apply List.map_congr_left
        intro x hx
        rw [List.filter_cons]
        have hfx : (f a == x) = false := by
          simp only [beq_eq_false_iff_ne, ne_eq]
          intro hfa
          exact hnot (hfa ▸ hx)
        simp [hfx]
      rw [List.map_cons, List.map_cons, List.flatten_cons, List.flatten_cons,
        hhead, htail, List.cons_append]
    · have hfj : (f a == j) = false := by
        simp only [beq_eq_false_iff_ne, ne_eq]
        exact hj
      have hc2 : js.count (f a) = 1 := by
        have hjf : (j == f a) = false := by
          simp only [beq_eq_false_iff_ne, ne_eq]
          exact fun h => hj h.symm
        rw [List.count_cons, hjf] at hcount
        simpa using hcount
      have hhead : (a :: E).filter (fun e => f e == j) =
          E.filter (fun e => f e == j) := by
        rw [List.filter_cons]
        simp [hfj]
      rw [List.map_cons, List.map_cons, List.flatten_cons, List.flatten_cons, hhead]
      exact (((ih hc2).append_left _).trans List.perm_middle).trans
        ((List.Perm.refl _).cons a)

lemma flatten_filter_range_perm {α : Type} (E : List α) (f : α → Nat) (N : Nat)
    (hN : ∀ e ∈ E, f e < N) :
    (((List.range N).map (fun j => E.filter (fun e => f e == j))).flatten).Perm E := by
  induction E with
  | nil =>
    have hz : ((List.range N).map
        (fun j => ([] : List α).filter (fun e => f e == j))).flatten = [] := by
      rw [List.flatten_eq_nil_iff]
      intro l hl
      rcases List.mem_map.mp hl with ⟨j, _, hj⟩
      rw [← hj]
      rfl
    rw [hz]
  | cons a E ih =>
    have hfa : f a < N := hN a (List.mem_cons_self a E)
    have hc : (List.range N).count (f a) = 1 := count_range_self _ _ hfa
    exact (flatten_filter_cons_perm _ a E f hc).trans
      ((ih (fun e he => hN e (List.mem_cons_of_mem _ he))).cons a)

/-! ## Resize lemmas -/

lemma ht_resize_allocated {DATA : Type} (t : smb_ht DATA) :
    (ht_resize t).allocated = 2 * t.allocated + 1 := rfl

lemma ht_resize_length {DATA : Type} (t : smb_ht DATA) :
    (ht_resize t).length = t.length := rfl

lemma ht_resize_hash {DATA : Type} (t : smb_ht DATA) :
    (ht_resize t).hash = t.hash := rfl

lemma ht_resize_comp {DATA : Type} (t : smb_ht DATA) :
    (ht_resize t).comp = t.comp := rfl

lemma ht_resize_table_length {DATA : Type} (t : smb_ht DATA) :
    (ht_resize t).table.length = 2 * t.allocated + 1 := by
  show ((List.range (2 * t.allocated + 1)).map _).length = 2 * t.allocated + 1
  rw [List.length_map, List.length_range]

lemma ht_resize_bucket {DATA : Type} (t : smb_ht DATA) (j : Nat)
    (hj : j < 2 * t.allocated + 1) :
    ht_bucket (ht_resize t) j =
      (ht_entries t).filter (fun e => t.hash e.1 % (2 * t.allocated + 1) == j) := by
  have hjl : j < (ht_resize t).table.length := by rw [ht_resize_table_length]; exact hj
  have hjm : j < ((List.range (2 * t.allocated + 1)).map
      (fun j => (ht_entries t).filter
        (fun e => t.hash e.1 % (2 * t.allocated + 1) == j))).length := by
    simpa using hj
  rw [ht_bucket, List.getD_eq_getElem _ _ hjl]
  show ((List.range (2 * t.allocated + 1)).map
      (fun j => (ht_entries t).filter
        (fun e => t.hash e.1 % (2 * t.allocated + 1) == j)))[j] = _
  rw [List.getElem_map, List.getElem_range]

lemma ht_resize_entries {DATA : Type} (t : smb_ht DATA) :
    (ht_entries (ht_resize t)).Perm (ht_entries t) := by
  have hN : ∀ e ∈ ht_entries t,
      t.hash e.1 % (2 * t.allocated + 1) < 2 * t.allocated + 1 :=
    fun e _ => Nat.mod_lt _ (Nat.succ_pos _)
  exact flatten_filter_range_perm (ht_entries t)
    (fun e => t.hash e.1 % (2 * t.allocated + 1)) (2 * t.allocated + 1) hN

lemma ht_resize_wf {DATA : Type} (t : smb_ht DATA) (hwf : ht_wf t) :
    ht_wf (ht_resize t) := by
  refine ⟨ht_resize_table_length t, Nat.succ_pos _, ?_, ?_⟩
  · rw [ht_resize_length, (ht_resize_entries t).length_eq]
    exact hwf.2.2.1
  · intro j hj e he
    have hjN : j < 2 * t.allocated + 1 := by
      rw [ht_resize_table_length] at hj
      exact hj
    rw [ht_resize_bucket t j hjN] at he
    have hp := List.of_mem_filter he
    show t.hash e.1 % (2 * t.allocated + 1) = j
    exact beq_iff_eq.mp hp

/-! ## Insert lemmas -/

lemma ht_insert_raw_length {DATA : Type} (t : smb_ht DATA) (key value : DATA) :
    (ht_insert_raw t key value).length = t.length + 1 := rfl

lemma ht_insert_raw_allocated {DATA : Type} (t : smb_ht DATA) (key value : DATA) :
    (ht_insert_raw t key value).allocated = t.allocated := rfl

lemma ht_insert_raw_hash {DATA : Type} (t : smb_ht DATA) (key value : DATA) :
    (ht_insert_raw t key value).hash = t.hash := rfl

lemma ht_insert_raw_comp {DATA : Type} (t : smb_ht DATA) (key value : DATA) :
    (ht_insert_raw t key value).comp = t.comp := rfl

lemma ht_insert_raw_entries {DATA : Type} (t : smb_ht DATA) (key value : DATA)
    (hwf : ht_wf t) :
    (ht_entries (ht_insert_raw t key value)).Perm ((key, value) :: ht_entries t) := by
  have hi : t.hash key % t.allocated < t.table.length := ht_index_lt t hwf key
  have h1 := flatten_set_perm t.table (t.hash key % t.allocated)
    ((key, value) :: ht_bucket t (t.hash key % t.allocated)) hi
  have h2 := flatten_getD_set t.table (t.hash key % t.allocated) hi
  exact h1.trans ((h2.symm).cons (key, value))

lemma ht_insert_raw_wf {DATA : Type} (t : smb_ht DATA) (key value : DATA)
    (hwf : ht_wf t) : ht_wf (ht_insert_raw t key value) := by
  have hi : t.hash key % t.allocated < t.table.length := ht_index_lt t hwf key
  refine ⟨?_, hwf.2.1, ?_, ?_⟩
  · show (t.table.set _ _).length = t.allocated
    rw [List.length_set]
    exact hwf.1
  · rw [ht_insert_raw_length, (ht_insert_raw_entries t key value hwf).length_eq]
    show t.length + 1 = ((key, value) :: ht_entries t).length
    rw [List.length_cons, hwf.2.2.1]
  · intro j hj e he
    have hjlen : j < t.table.length := by
      have : (ht_insert_raw t key value).table.length = t.table.length := by
        show (t.table.set _ _).length = t.table.length
        rw [List.length_set]
      rw [this] at hj
      exact hj
    show t.hash e.1 % t.allocated = j
    by_cases hij : j = t.hash key % t.allocated
    · subst hij
      have hb : ht_bucket (ht_insert_raw t key value) (t.hash key % t.allocated) =
          (key, value) :: ht_bucket t (t.hash key % t.allocated) := by
        show (t.table.set _ _).getD _ [] = _
        exact getD_set_self t.table _ _ [] hi
      rw [hb] at he
      rcases List.mem_cons.mp he with h1 | h1
      · rw [h1]
      · exact hwf.2.2.2 _ hjlen e h1
    · have hb : ht_bucket (ht_insert_raw t key value) j = ht_bucket t j := by
        show (t.table.set _ _).getD j [] = t.table.getD j []
        exact getD_set_ne t.table _ j _ [] (fun h => hij h.symm)
      rw [hb] at he
      exact hwf.2.2.2 j hjlen e he

lemma ht_insert_of_not_contains {DATA : Type} (t : smb_ht DATA) (key value : DATA)
    (ra : Bool) (hc : ht_contains t key = false) :
    ht_insert t key value true ra =
      if t.length + 1 > 1 + 7 * t.allocated / 10 then
        if ra then (ht_resize (ht_insert_raw t key value), SMB_SUCCESS)
        else (ht_insert_raw t key value, SMB_ALLOCATION_ERROR)
      else (ht_insert_raw t key value, SMB_SUCCESS) := by
  have hc2 : ht_chain_contains t.comp key
      (ht_bucket t (t.hash key % t.allocated)) = false := hc
  rw [ht_insert]
  simp only [hc2, Bool.false_eq_true, if_false]
  rfl

/-- Inserting a key that is not yet present (all entry allocations
succeeding): effect on all observable components. -/
lemma ht_insert_new_spec {DATA : Type} (t : smb_ht DATA) (key value : DATA)
    (ra : Bool) (hwf : ht_wf t) (hc : ht_contains t key = false) :
    ht_wf (ht_insert t key value true ra).1 ∧
    (ht_insert t key value true ra).1.hash = t.hash ∧
    (ht_insert t key value true ra).1.comp = t.comp ∧
    (ht_insert t key value true ra).1.length = t.length + 1 ∧
    (ht_entries (ht_insert t key value true ra).1).Perm
      ((key, value) :: ht_entries t) ∧
    (if t.length + 1 > 1 + 7 * t.allocated / 10 then
       if ra then (ht_insert t key value true ra).1.allocated = 2 * t.allocated + 1 ∧
         (ht_insert t key value true ra).2 = SMB_SUCCESS
       else (ht_insert t key value true ra).1.allocated = t.allocated ∧
         (ht_insert t key value true ra).2 = SMB_ALLOCATION_ERROR
     else (ht_insert t key value true ra).1.allocated = t.allocated ∧
       (ht_insert t key value true ra).2 = SMB_SUCCESS) := by
  rw [ht_insert_of_not_contains t key value ra hc]
  by_cases htrig : t.length + 1 > 1 + 7 * t.allocated / 10
  · rw [if_pos htrig, if_pos htrig]
    cases ra with
    | true =>
      exact ⟨ht_resize_wf _ (ht_insert_raw_wf t key value hwf), rfl, rfl, rfl,
        (ht_resize_entries _).trans (ht_insert_raw_entries t key value hwf), rfl, rfl⟩
    | false =>
      exact ⟨ht_insert_raw_wf t key value hwf, rfl, rfl, rfl,
        ht_insert_raw_entries t key value hwf, rfl, rfl⟩
  · rw [if_neg htrig, if_neg htrig]
    exact ⟨ht_insert_raw_wf t key value hwf, rfl, rfl, rfl,
      ht_insert_raw_entries t key value hwf, rfl, rfl⟩

/-! ## Construction lemmas -/

lemma ht_create_table {DATA : Type} (hash : DATA → Nat) (comp : DATA → DATA → Int) :
    ∃ t0 : smb_ht DATA, ht_create hash comp true = (some t0, SMB_SUCCESS) ∧
      ht_wf t0 ∧ t0.hash = hash ∧ t0.comp = comp ∧ t0.length = 0 ∧
      t0.allocated = HASH_TABLE_INITIAL_SIZE ∧ ht_entries t0 = [] ∧
      t0.table.length = HASH_TABLE_INITIAL_SIZE ∧ (∀ i, ht_bucket t0 i = []) := by
  refine ⟨{ length := 0, allocated := HASH_TABLE_INITIAL_SIZE, hash := hash,
            comp := comp, table := List.replicate HASH_TABLE_INITIAL_SIZE [] },
          rfl, ?_, rfl, rfl, rfl, rfl, ?_, ?_, ?_⟩
  · refine ⟨List.length_replicate _ _, by show 0 < HASH_TABLE_INITIAL_SIZE; decide, ?_, ?_⟩
    · show 0 = (List.replicate HASH_TABLE_INITIAL_SIZE ([] : List (DATA × DATA))).flatten.length
      have hz : (List.replicate HASH_TABLE_INITIAL_SIZE
          ([] : List (DATA × DATA))).flatten = [] := by
        rw [List.flatten_eq_nil_iff]
        intro l hl
        exact List.eq_of_mem_replicate hl
      rw [hz]
      rfl
    · intro i hi e he
      have hb : (List.replicate HASH_TABLE_INITIAL_SIZE
          ([] : List (DATA × DATA))).getD i [] = [] := by
        by_cases h : i < HASH_TABLE_INITIAL_SIZE
        · rw [List.getD_eq_getElem _ _ (by simpa using h), List.getElem_replicate]
        · rw [List.getD_eq_default]
          simpa using Nat.le_of_not_lt h
      rw [ht_bucket] at he
      rw [hb] at he
      cases he
  · show (List.replicate HASH_TABLE_INITIAL_SIZE ([] : List (DATA × DATA))).flatten = []
    rw [List.flatten_eq_nil_iff]
    intro l hl
    exact List.eq_of_mem_replicate hl
  · rw [List.length_replicate]
  · intro i
    rw [ht_bucket]
    show (List.replicate HASH_TABLE_INITIAL_SIZE ([] : List (DATA × DATA))).getD i [] = []
    by_cases h : i < HASH_TABLE_INITIAL_SIZE
    · rw [List.getD_eq_getElem _ _ (by simpa using h), List.getElem_replicate]
    · rw [List.getD_eq_default]
      simpa using Nat.le_of_not_lt h

/-! ## Insert-sequence lemmas -/

lemma ht_insert_list_spec {DATA : Type} (pairs : List (DATA × DATA)) :
    ∀ t : smb_ht DATA, ht_wf t →
    (∀ p ∈ pairs, ∀ e ∈ ht_entries t, t.comp p.1 e.1 ≠ 0) →
    pairs.Pairwise (fun p q => t.comp q.1 p.1 ≠ 0) →
    ht_wf (ht_insert_list t pairs) ∧
    (ht_insert_list t pairs).hash = t.hash ∧
    (ht_insert_list t pairs).comp = t.comp ∧
    (ht_insert_list t pairs).length = t.length + pairs.length ∧
    (ht_entries (ht_insert_list t pairs)).Perm (pairs ++ ht_entries t) := by
  induction pairs with
  | nil =>
    intro t hwf _ _
    exact ⟨hwf, rfl, rfl, rfl, by rw [List.nil_append]; exact List.Perm.refl _⟩
  | cons p ps ih =>
    intro t hwf hnew hdist
    have hcont : ht_contains t p.1 = false :=
      ht_not_contains t p.1 (fun e he => hnew p (List.mem_cons_self p ps) e he)
    have spec := ht_insert_new_spec t p.1 p.2 true hwf hcont
    obtain ⟨hwf1, hhash1, hcomp1, hlen1, hent1, _⟩ := spec
    have hpc := List.pairwise_cons.mp hdist
    have hnew1 : ∀ q ∈ ps, ∀ e ∈ ht_entries (ht_insert t p.1 p.2 true true).1,
        (ht_insert t p.1 p.2 true true).1.comp q.1 e.1 ≠ 0 := by
      intro q hq e he
      rw [hcomp1]
      rcases List.mem_cons.mp ((hent1.mem_iff).mp he) with h1 | h1
      · rw [h1]
        exact hpc.1 q hq
      · exact hnew q (List.mem_cons_of_mem p hq) e h1
    have hdist1 : ps.Pairwise
        (fun a b => (ht_insert t p.1 p.2 true true).1.comp b.1 a.1 ≠ 0) := by
      rw [hcomp1]
      exact hpc.2
    have hrec := ih (ht_insert t p.1 p.2 true true).1 hwf1 hnew1 hdist1
    obtain ⟨hwf2, hhash2, hcomp2, hlen2, hent2⟩ := hrec
    refine ⟨hwf2, ?_, ?_, ?_, ?_⟩
    · rw [ht_insert_list, hhash2, hhash1]
    · rw [ht_insert_list, hcomp2, hcomp1]
    · rw [ht_insert_list, hlen2, hlen1, List.length_cons]
      omega
    · rw [ht_insert_list]
      refine hent2.trans ?_
      refine ((hent1.append_left ps).trans ?_)
      exact List.perm_middle

/-! ## C1: round trip -/

/-- Round-trip retrieval after a distinct-key insertion sequence into a
freshly created table; shared by several claims. -/
lemma ht_round_trip_aux {DATA : Type} (hash : DATA → Nat) (comp : DATA → DATA → Int)
    (pairs : List (DATA × DATA)) (t0 : smb_ht DATA)
    (hrefl : ∀ p ∈ pairs, comp p.1 p.1 = 0)
    (hdist : pairs.Pairwise (fun p q => comp p.1 q.1 ≠ 0 ∧ comp q.1 p.1 ≠ 0))
    (hcreate : (ht_create hash comp true).1 = some t0) :
    ∀ p ∈ pairs, ht_get (ht_insert_list t0 pairs) p.1 = (some p.2, SMB_SUCCESS) := by
  obtain ⟨t0s, hcr, hwf0, hh0, hc0, hl0, ha0, he0, htl0, hb0⟩ := ht_create_table hash comp
  have heq : some t0s = some t0 := by rw [← hcreate, hcr]
  have ht0 : t0s = t0 := Option.some.inj heq
  subst ht0
  have hnew : ∀ p ∈ pairs, ∀ e ∈ ht_entries t0s, t0s.comp p.1 e.1 ≠ 0 := by
    intro p hp e he
    rw [he0] at he
    cases he
  have hdist1 : pairs.Pairwise (fun p q => t0s.comp q.1 p.1 ≠ 0) := by
    rw [hc0]
    exact hdist.imp (fun h => h.2)
  obtain ⟨hwfF, hhF, hcF, hlF, heF⟩ := ht_insert_list_spec pairs t0s hwf0 hnew hdist1
  have hentF : (ht_entries (ht_insert_list t0s pairs)).Perm pairs := by
    rw [he0] at heF
    simpa using heF
  have hcompF : (ht_insert_list t0s pairs).comp = comp := by rw [hcF, hc0]
  intro p hp
  apply ht_get_of_unique _ p.1 p.2 hwfF
  · exact (hentF.mem_iff).mpr (by simpa using hp)
  · rw [hcompF]
    exact hrefl p hp
  · intro e heM hce
    have hem : e ∈ pairs := (hentF.mem_iff).mp heM
    rw [hcompF] at hce
    by_cases hep : e = p
    · rw [hep]
    · have hsym : Symmetric
          (fun a b : DATA × DATA => comp a.1 b.1 ≠ 0 ∧ comp b.1 a.1 ≠ 0) :=
        fun a b h => ⟨h.2, h.1⟩
      have hr := List.Pairwise.forall hsym hdist hp hem (fun h => hep h.symm)
      exact absurd hce hr.1

/-- Claim C1: for every table created with a hash function and comparator,
after any sequence of `ht_insert` calls whose keys are pairwise distinct
under the comparator, `ht_get` on each inserted key returns the value
most recently assigned to that key and reports success status. -/
theorem ht_round_trip {DATA : Type} (hash : DATA → Nat) (comp : DATA → DATA → Int)
    (pairs : List (DATA × DATA)) (t0 : smb_ht DATA)
    (hrefl : ∀ p ∈ pairs, comp p.1 p.1 = 0)
    (hdist : pairs.Pairwise (fun p q => comp p.1 q.1 ≠ 0 ∧ comp q.1 p.1 ≠ 0))
    (hcreate : (ht_create hash comp true).1 = some t0) :
    ∀ p ∈ pairs, ht_get (ht_insert_list t0 pairs) p.1 = (some p.2, SMB_SUCCESS) :=
  ht_round_trip_aux hash comp pairs t0 hrefl hdist hcreate

/-- Witness for `ht_round_trip`: two concrete insertions over `Int`. -/
theorem ht_round_trip_witness :
    ht_get (ht_insert_list ht_test_table [((1 : Int), (10 : Int)), (2, 20)]) 1
      = (some 10, SMB_SUCCESS) ∧
    ht_get (ht_insert_list ht_test_table [((1 : Int), (10 : Int)), (2, 20)]) 2
      = (some 20, SMB_SUCCESS) := by
  have h := ht_round_trip ht_test_linear_hash data_compare_int
    [((1 : Int), (10 : Int)), (2, 20)] ht_test_table
    (by decide) (by decide) (by rfl)
  exact ⟨h (1, 10) (by decide), h (2, 20) (by decide)⟩

/-! ## C2: resize correctness -/

lemma ht_insert_step_hyps {DATA : Type} (t : smb_ht DATA) (p : DATA × DATA)
    (ps : List (DATA × DATA)) (hwf : ht_wf t)
    (hnew : ∀ q ∈ p :: ps, ∀ e ∈ ht_entries t, t.comp q.1 e.1 ≠ 0)
    (hdist : (p :: ps).Pairwise (fun a b => t.comp b.1 a.1 ≠ 0)) :
    ht_contains t p.1 = false ∧
    (∀ q ∈ ps, ∀ e ∈ ht_entries (ht_insert t p.1 p.2 true true).1,
      (ht_insert t p.1 p.2 true true).1.comp q.1 e.1 ≠ 0) ∧
    ps.Pairwise (fun a b => (ht_insert t p.1 p.2 true true).1.comp b.1 a.1 ≠ 0) := by
  have hcont : ht_contains t p.1 = false :=
    ht_not_contains t p.1 (fun e he => hnew p (List.mem_cons_self p ps) e he)
  obtain ⟨hwf1, hhash1, hcomp1, hlen1, hent1, _⟩ :=
    ht_insert_new_spec t p.1 p.2 true hwf hcont
  have hpc := List.pairwise_cons.mp hdist
  refine ⟨hcont, ?_, ?_⟩
  · intro q hq e he
    rw [hcomp1]
    rcases List.mem_cons.mp ((hent1.mem_iff).mp he) with h1 | h1
    · rw [h1]
      exact hpc.1 q hq
    · exact hnew q (List.mem_cons_of_mem p hq) e h1
  · rw [hcomp1]
    exact hpc.2

lemma ht_insert_list_alloc_stable {DATA : Type} (pairs : List (DATA × DATA)) :
    ∀ t : smb_ht DATA, ht_wf t →
    (∀ p ∈ pairs, ∀ e ∈ ht_entries t, t.comp p.1 e.1 ≠ 0) →
    pairs.Pairwise (fun p q => t.comp q.1 p.1 ≠ 0) →
    t.allocated = 257 →
    t.length + pairs.length ≤ 180 →
    (ht_insert_list t pairs).allocated = 257 := by
  induction pairs with
  | nil =>
    intro t _ _ _ ha _
    exact ha
  | cons p ps ih =>
    intro t hwf hnew hdist ha hlen
    obtain ⟨hcont, hnew1, hdist1⟩ := ht_insert_step_hyps t p ps hwf hnew hdist
    obtain ⟨hwf1, hhash1, hcomp1, hlen1, hent1, halloc⟩ :=
      ht_insert_new_spec t p.1 p.2 true hwf hcont
    have h710 : 1 + 7 * (257 : Nat) / 10 = 180 := by norm_num
    have htrig : ¬ (t.length + 1 > 1 + 7 * t.allocated / 10) := by
      rw [ha, h710]
      rw [List.length_cons] at hlen
      omega
    rw [if_neg htrig] at halloc
    rw [ht_insert_list]
    apply ih (ht_insert t p.1 p.2 true true).1 hwf1 hnew1 hdist1
    · rw [halloc.1, ha]
    · rw [hlen1]
      rw [List.length_cons] at hlen
      omega

lemma ht_insert_list_append {DATA : Type} (l1 l2 : List (DATA × DATA)) :
    ∀ t : smb_ht DATA,
      ht_insert_list t (l1 ++ l2) = ht_insert_list (ht_insert_list t l1) l2 := by
  induction l1 with
  | nil => intro t; rfl
  | cons p ps ih =>
    intro t
    rw [List.cons_append, ht_insert_list, ht_insert_list]
    exact ih _

/-- Claim C2: starting from a freshly created table with initial capacity
257 and load-factor threshold 0.7, inserting distinct keys one at a time
leaves the bucket-array capacity at 257 through the 180th insert; the
181st distinct-key insert strictly increases the capacity; and after
that growth every previously inserted key is still retrievable via
`ht_get` with its correct value and success status. -/
theorem ht_resize_correct {DATA : Type} (hash : DATA → Nat) (comp : DATA → DATA → Int)
    (pairs : List (DATA × DATA)) (t0 : smb_ht DATA)
    (hlen : pairs.length = 181)
    (hrefl : ∀ p ∈ pairs, comp p.1 p.1 = 0)
    (hdist : pairs.Pairwise (fun p q => comp p.1 q.1 ≠ 0 ∧ comp q.1 p.1 ≠ 0))
    (hcreate : (ht_create hash comp true).1 = some t0) :
    (∀ n, n ≤ 180 →
      (ht_insert_list t0 (pairs.take n)).allocated = HASH_TABLE_INITIAL_SIZE) ∧
    (ht_insert_list t0 pairs).allocated > HASH_TABLE_INITIAL_SIZE ∧
    (∀ p ∈ pairs, ht_get (ht_insert_list t0 pairs) p.1 = (some p.2, SMB_SUCCESS)) := by
  obtain ⟨t0s, hcr, hwf0, hh0, hc0, hl0, ha0, he0, htl0, hb0⟩ := ht_create_table hash comp
  have heq : some t0s = some t0 := by rw [← hcreate, hcr]
  have ht0 : t0s = t0 := Option.some.inj heq
  subst ht0
  have hnew0 : ∀ l : List (DATA × DATA), ∀ p ∈ l, ∀ e ∈ ht_entries t0s,
      t0s.comp p.1 e.1 ≠ 0 := by
    intro l p hp e he
    rw [he0] at he
    cases he
  have hdist1 : pairs.Pairwise (fun p q => t0s.comp q.1 p.1 ≠ 0) := by
    rw [hc0]
    exact hdist.imp (fun h => h.2)
  have hA : ∀ n, n ≤ 180 →
      (ht_insert_list t0s (pairs.take n)).allocated = HASH_TABLE_INITIAL_SIZE := by
    intro n hn
    have hlt : (pairs.take n).length ≤ n := by
      rw [List.length_take]
      exact min_le_left _ _
    exact ht_insert_list_alloc_stable (pairs.take n) t0s hwf0 (hnew0 _)
      (List.Pairwise.sublist (List.take_sublist n pairs) hdist1) ha0
      (by rw [hl0]; omega)
  have htay : pairs.take 180 ++ pairs.drop 180 = pairs := List.take_append_drop 180 pairs
  obtain ⟨q, hq⟩ : ∃ q, pairs.drop 180 = [q] := by
    apply List.length_eq_one.mp
    rw [List.length_drop, hlen]
  obtain ⟨hwfT, hhT, hcT, hlT, heT⟩ := ht_insert_list_spec (pairs.take 180) t0s hwf0
    (hnew0 _) (List.Pairwise.sublist (List.take_sublist 180 pairs) hdist1)
  have hlenT : (ht_insert_list t0s (pairs.take 180)).length = 180 := by
    rw [hlT, hl0, List.length_take, hlen]
    omega
  have hallocT : (ht_insert_list t0s (pairs.take 180)).allocated = 257 :=
    hA 180 (le_refl _)
  have hcontq : ht_contains (ht_insert_list t0s (pairs.take 180)) q.1 = false := by
    apply ht_not_contains
    intro e he hce
    have heT2 : e ∈ pairs.take 180 := by
      have hm := (heT.mem_iff).mp he
      rw [he0, List.append_nil] at hm
      exact hm
    have hdist2 := hdist
    rw [← htay] at hdist2
    have hres := (List.pairwise_append.mp hdist2).2.2 e heT2 q
      (by rw [hq]; exact List.mem_singleton_self q)
    rw [hcT, hc0] at hce
    exact hres.2 hce
  obtain ⟨hwfF, hhF, hcF, hlF, heF, hallocF⟩ :=
    ht_insert_new_spec _ q.1 q.2 true hwfT hcontq
  have htrigq : (ht_insert_list t0s (pairs.take 180)).length + 1 >
      1 + 7 * (ht_insert_list t0s (pairs.take 180)).allocated / 10 := by
    rw [hlenT, hallocT]
    norm_num
  rw [if_pos htrigq] at hallocF
  have hJ : (ht_insert (ht_insert_list t0s (pairs.take 180)) q.1 q.2 true true).1.allocated
      = 2 * (ht_insert_list t0s (pairs.take 180)).allocated + 1 := hallocF.1
  refine ⟨hA, ?_, ?_⟩
  · rw [← htay, ht_insert_list_append, hq]
    show (ht_insert (ht_insert_list t0s (pairs.take 180)) q.1 q.2 true true).1.allocated
      > HASH_TABLE_INITIAL_SIZE
    rw [hJ, hallocT]
    show 2 * 257 + 1 > 257
    norm_num
  · exact ht_round_trip_aux hash comp pairs t0s hrefl hdist (by rw [hcr])

/-- Witness for `ht_resize_correct` at the concrete 181-pair sequence. -/
theorem ht_resize_correct_witness :
    (∀ n, n ≤ 180 →
      (ht_insert_list ht_test_table (ht_test_pairs.take n)).allocated
        = HASH_TABLE_INITIAL_SIZE) ∧
    (ht_insert_list ht_test_table ht_test_pairs).allocated
      > HASH_TABLE_INITIAL_SIZE ∧
    (∀ p ∈ ht_test_pairs,
      ht_get (ht_insert_list ht_test_table ht_test_pairs) p.1
        = (some p.2, SMB_SUCCESS)) :=
  ht_resize_correct ht_test_linear_hash data_compare_int ht_test_pairs ht_test_table
    (by simp [ht_test_pairs])
    (by intro p hp; simp [data_compare_int])
    (by
      rw [ht_test_pairs]
      refine List.pairwise_map.mpr ?_
      refine (List.pairwise_lt_range 181).imp ?_
      intro a b hab
      refine ⟨?_, ?_⟩ <;>
        · simp only [data_compare_int, Int.ofNat_eq_natCast]
          omega)
    (by rfl)

/-! ## C3: overwrite -/

/-- Claim C3: for every table and every key already present in it,
`ht_insert` with that key and a new value overwrites the stored value in
place (a subsequent `ht_get` returns the new value with success status)
and leaves the table's length unchanged, with no growth check performed
(the capacity is untouched and the status is success regardless of the
load factor or of the resize allocation flag). -/
theorem ht_overwrite {DATA : Type} (t : smb_ht DATA) (key value : DATA)
    (ea ra : Bool) (hwf : ht_wf t) (hc : ht_contains t key = true) :
    (ht_insert t key value ea ra).2 = SMB_SUCCESS ∧
    (ht_insert t key value ea ra).1.length = t.length ∧
    (ht_insert t key value ea ra).1.allocated = t.allocated ∧
    ht_get (ht_insert t key value ea ra).1 key = (some value, SMB_SUCCESS) := by
  have hc2 : ht_chain_contains t.comp key
      (ht_bucket t (t.hash key % t.allocated)) = true := hc
  have hres : ht_insert t key value ea ra = (ht_overwrite_table t key value, SMB_SUCCESS) := by
    rw [ht_insert]
    simp only [hc2, if_true]
    rfl
  rw [hres]
  refine ⟨rfl, rfl, rfl, ?_⟩
  have hi : t.hash key % t.allocated < t.table.length := ht_index_lt t hwf key
  have hmatch : ∃ e ∈ ht_bucket t (t.hash key % t.allocated), t.comp key e.1 = 0 :=
    (ht_contains_iff t key).mp hc
  have hb : ht_bucket (ht_overwrite_table t key value) (t.hash key % t.allocated) =
      ht_overwrite_chain t.comp key value
        (ht_bucket t (t.hash key % t.allocated)) := by
    show (t.table.set _ _).getD _ [] = _
    exact getD_set_self t.table _ _ [] hi
  rw [ht_get]
  show (match ht_find_chain t.comp key
      (ht_bucket (ht_overwrite_table t key value) (t.hash key % t.allocated)) with
    | some v => ((some v : Option DATA), SMB_SUCCESS)
    | none => (none, SMB_NOT_FOUND_ERROR)) = (some value, SMB_SUCCESS)
  rw [hb, ht_find_overwrite t.comp key value _ hmatch]

/-- Witness for `ht_overwrite`: overwriting key 1 in the small table. -/
theorem ht_overwrite_witness :
    (ht_insert ht_test_small 1 7 true true).2 = SMB_SUCCESS ∧
    (ht_insert ht_test_small 1 7 true true).1.length = ht_test_small.length ∧
    (ht_insert ht_test_small 1 7 true true).1.allocated = ht_test_small.allocated ∧
    ht_get (ht_insert ht_test_small 1 7 true true).1 1 = (some 7, SMB_SUCCESS) :=
  ht_overwrite ht_test_small 1 7 true true (by decide) (by decide)

/-! ## C4: miss contract -/

/-- Claim C4: for every table and every key absent from it, `ht_get` and
`ht_remove` (and `ht_remove_act`) report a not-found status and make no
change to the table: the table after the call is exactly the table
before (same length, capacity and stored entries), and no callback
fires. -/
theorem ht_miss_contract {DATA : Type} (t : smb_ht DATA) (key : DATA)
    (hc : ht_contains t key = false) :
    ht_get t key = (none, SMB_NOT_FOUND_ERROR) ∧
    ht_remove t key = (t, SMB_NOT_FOUND_ERROR) ∧
    ht_remove_act t key = (t, SMB_NOT_FOUND_ERROR, []) := by
  have hnone : ∀ e ∈ ht_bucket t (t.hash key % t.allocated), t.comp key e.1 ≠ 0 := by
    intro e he hce
    have : ht_contains t key = true := (ht_contains_iff t key).mpr ⟨e, he, hce⟩
    rw [hc] at this
    cases this
  have hra : ht_remove_act t key = (t, SMB_NOT_FOUND_ERROR, []) := by
    simp only [ht_remove_act]
    rw [ht_remove_chain_none _ _ _ hnone]
  refine ⟨?_, ?_, hra⟩
  · rw [ht_get, ht_find_chain_eq_none _ _ _ hnone]
  · rw [ht_remove, hra]

/-- Witness for `ht_miss_contract`: key 2 is absent from the small table. -/
theorem ht_miss_contract_witness :
    ht_get ht_test_small 2 = (none, SMB_NOT_FOUND_ERROR) ∧
    ht_remove ht_test_small 2 = (ht_test_small, SMB_NOT_FOUND_ERROR) ∧
    ht_remove_act ht_test_small 2 = (ht_test_small, SMB_NOT_FOUND_ERROR, []) :=
  ht_miss_contract ht_test_small 2 (by decide)

/-! ## C5: removal accounting -/

/-- Removing a present key: the removed entry exists, the callback is
invoked exactly once on its value, the entry multiset shrinks by exactly
that entry, well-formedness is preserved, and every other key's
presence survives. -/
lemma ht_remove_act_found {DATA : Type} (t : smb_ht DATA) (key : DATA)
    (hwf : ht_wf t) (hc : ht_contains t key = true) :
    ∃ e : DATA × DATA, t.comp key e.1 = 0 ∧ e ∈ ht_entries t ∧
      ht_remove_act t key = (ht_remove_table t key, SMB_SUCCESS, [e.2]) ∧
      (ht_entries t).Perm (e :: ht_entries (ht_remove_table t key)) ∧
      ht_wf (ht_remove_table t key) ∧ 1 ≤ t.length ∧
      (∀ k2, (∀ x ∈ ht_entries t, ¬(t.comp key x.1 = 0 ∧ t.comp k2 x.1 = 0)) →
        ht_contains t k2 = true → ht_contains (ht_remove_table t key) k2 = true) := by
  have hmatch : ∃ x ∈ ht_bucket t (t.hash key % t.allocated), t.comp key x.1 = 0 :=
    (ht_contains_iff t key).mp hc
  obtain ⟨e, hce, hme, hfst, hperm, hsub, hkeep⟩ :=
    ht_remove_chain_found t.comp key _ hmatch
  have hi : t.hash key % t.allocated < t.table.length := ht_index_lt t hwf key
  have hbrm : ht_bucket (ht_remove_table t key) (t.hash key % t.allocated) =
      (ht_remove_chain t.comp key (ht_bucket t (t.hash key % t.allocated))).2 := by
    show (t.table.set _ _).getD _ [] = _
    exact getD_set_self t.table _ _ [] hi
  have hentp : (ht_entries t).Perm (e :: ht_entries (ht_remove_table t key)) := by
    have h1 := flatten_getD_set t.table (t.hash key % t.allocated) hi
    have h2 := flatten_set_perm t.table (t.hash key % t.allocated)
      (ht_remove_chain t.comp key (ht_bucket t (t.hash key % t.allocated))).2 hi
    refine h1.trans ?_
    refine (hperm.append_right _).trans ?_
    exact h2.symm.cons e
  have hlen1 : t.length = (ht_entries (ht_remove_table t key)).length + 1 := by
    rw [hwf.2.2.1, hentp.length_eq, List.length_cons]
  have hwf2 : ht_wf (ht_remove_table t key) := by
    refine ⟨?_, hwf.2.1, ?_, ?_⟩
    · show (t.table.set _ _).length = t.allocated
      rw [List.length_set]
      exact hwf.1
    · show t.length - 1 = (ht_entries (ht_remove_table t key)).length
      omega
    · intro j hj x hx
      have hjlen : j < t.table.length := by
        have hsame : (ht_remove_table t key).table.length = t.table.length := by
          show (t.table.set _ _).length = _
          rw [List.length_set]
        rw [hsame] at hj
        exact hj
      show t.hash x.1 % t.allocated = j
      by_cases hij : j = t.hash key % t.allocated
      · subst hij
        rw [hbrm] at hx
        exact hwf.2.2.2 _ hjlen x (hsub x hx)
      · have hb2 : ht_bucket (ht_remove_table t key) j = ht_bucket t j := by
          show (t.table.set _ _).getD j [] = t.table.getD j []
          exact getD_set_ne t.table _ j _ [] (fun h => hij h.symm)
        rw [hb2] at hx
        exact hwf.2.2.2 j hjlen x hx
  refine ⟨e, hce, ht_mem_bucket_entries t _ e hme, ?_, hentp, hwf2, by omega, ?_⟩
  · simp only [ht_remove_act]
    rw [hfst]
    rfl
  · intro k2 hnd hc2
    rcases (ht_contains_iff t k2).mp hc2 with ⟨x, hx, hcx⟩
    apply (ht_contains_iff (ht_remove_table t key) k2).mpr
    by_cases hjk : t.hash k2 % t.allocated = t.hash key % t.allocated
    · have hxchain : x ∈ ht_bucket t (t.hash key % t.allocated) := by
        rw [← hjk]
        exact hx
      have hxne : t.comp key x.1 ≠ 0 := by
        intro hkx
        exact hnd x (ht_mem_bucket_entries t _ x hxchain) ⟨hkx, hcx⟩
      refine ⟨x, ?_, hcx⟩
      show x ∈ ht_bucket (ht_remove_table t key) (t.hash k2 % t.allocated)
      rw [hjk, hbrm]
      exact hkeep x hxchain hxne
    · refine ⟨x, ?_, hcx⟩
      have hb2 : ht_bucket (ht_remove_table t key) (t.hash k2 % t.allocated) =
          ht_bucket t (t.hash k2 % t.allocated) := by
        show (t.table.set _ _).getD _ [] = t.table.getD _ []
        exact getD_set_ne t.table _ _ _ [] (fun h => hjk h.symm)
      show x ∈ ht_bucket (ht_remove_table t key) (t.hash k2 % t.allocated)
      rw [hb2]
      exact hx

lemma ht_remove_list_spec {DATA : Type} (ks : List DATA) :
    ∀ t : smb_ht DATA, ht_wf t →
    (∀ k ∈ ks, ht_contains t k = true) →
    ks.Pairwise (fun k k2 => ∀ x ∈ ht_entries t,
      ¬(t.comp k x.1 = 0 ∧ t.comp k2 x.1 = 0)) →
    (ht_remove_list t ks).1.length + ks.length = t.length ∧
    (ht_remove_list t ks).2.length = ks.length ∧
    (ht_remove_list t ks).1.allocated = t.allocated := by
  induction ks with
  | nil =>
    intro t hwf _ _
    exact ⟨rfl, rfl, rfl⟩
  | cons k ks ih =>
    intro t hwf hpres hdist
    obtain ⟨e, hce, hme, hform, hperm, hwf2, hpos, hcont⟩ :=
      ht_remove_act_found t k hwf (hpres k (List.mem_cons_self k ks))
    have hpc := List.pairwise_cons.mp hdist
    have hpres2 : ∀ k2 ∈ ks, ht_contains (ht_remove_table t k) k2 = true := by
      intro k2 hk2
      exact hcont k2 (hpc.1 k2 hk2) (hpres k2 (List.mem_cons_of_mem k hk2))
    have hdist2 : ks.Pairwise (fun a b => ∀ x ∈ ht_entries (ht_remove_table t k),
        ¬((ht_remove_table t k).comp a x.1 = 0 ∧
          (ht_remove_table t k).comp b x.1 = 0)) := by
      refine hpc.2.imp ?_
      intro a b hab x hx
      have hx2 : x ∈ ht_entries t := (hperm.mem_iff).mpr (List.mem_cons_of_mem e hx)
      exact hab x hx2
    obtain ⟨hlen, hcb, halloc⟩ := ih (ht_remove_table t k) hwf2 hpres2 hdist2
    have hunfold : ht_remove_list t (k :: ks) =
        ((ht_remove_list (ht_remove_table t k) ks).1,
          [e.2] ++ (ht_remove_list (ht_remove_table t k) ks).2) := by
      simp only [ht_remove_list]
      rw [hform]
    rw [hunfold]
    have hrt : (ht_remove_table t k).length = t.length - 1 := rfl
    refine ⟨?_, ?_, halloc⟩
    · show (ht_remove_list (ht_remove_table t k) ks).1.length + (k :: ks).length
        = t.length
      rw [List.length_cons]
      rw [hrt] at hlen
      omega
    · show ([e.2] ++ (ht_remove_list (ht_remove_table t k) ks).2).length
        = (k :: ks).length
      rw [List.length_append, hcb]
      simp only [List.length_cons, List.length_nil]
      omega

/-- Claim C5: for every table and every list of distinct keys present in
it, removing those `n` keys via `ht_remove_act` decreases the table's
length by exactly `n`, invokes the removal callback exactly once per
removed key, and never decreases the bucket-array capacity (it is in
fact unchanged).  Distinctness is expressed as: no live entry compares
equal to two different keys of the list. -/
theorem ht_removal_accounting {DATA : Type} (t : smb_ht DATA) (ks : List DATA)
    (hwf : ht_wf t)
    (hpres : ∀ k ∈ ks, ht_contains t k = true)
    (hdist : ks.Pairwise (fun k k2 => ∀ x ∈ ht_entries t,
      ¬(t.comp k x.1 = 0 ∧ t.comp k2 x.1 = 0))) :
    (ht_remove_list t ks).1.length + ks.length = t.length ∧
    (ht_remove_list t ks).2.length = ks.length ∧
    (ht_remove_list t ks).1.allocated = t.allocated :=
  ht_remove_list_spec ks t hwf hpres hdist

/-- Witness for `ht_removal_accounting`: removing the single present key
1 from the small table. -/
theorem ht_removal_accounting_witness :
    (ht_remove_list ht_test_small [1]).1.length + [(1 : Int)].length
      = ht_test_small.length ∧
    (ht_remove_list ht_test_small [1]).2.length = [(1 : Int)].length ∧
    (ht_remove_list ht_test_small [1]).1.allocated = ht_test_small.allocated :=
  ht_removal_accounting ht_test_small [1] (by decide) (by decide) (by simp)

/-! ## C6: collision correctness -/

set_option maxRecDepth 100000

/-- Claim C6: under a constant hash function that sends every key to the
same bucket, inserting 20 distinct keys and then removing the
11th-inserted key, then the 1st-inserted, then the 20th-inserted leaves
a table of length exactly 17 in which each of the 17 remaining keys is
retrievable via `ht_get` with its originally inserted value and success
status. -/
theorem ht_collision_correct :
    ht_c6_final.length = 17 ∧
    ∀ i ∈ [(1 : Int), 2, 3, 4, 5, 6, 7, 8, 9, 11, 12, 13, 14, 15, 16, 17, 18],
      ht_get ht_c6_final i = (some (-i), SMB_SUCCESS) := by
  decide

/-! ## C7: teardown cleanup -/

/-- Claim C7: for every well-formed table, tearing it down with the
callback variant `ht_delete_act` invokes the supplied callback exactly
once per currently-live value: the invocation sequence is exactly the
values of the live entries in bucket-index order then chain order (so no
entry is visited twice and no removed entry is visited), its count is
the table's tracked length, and it is invariant (up to order) under any
number of resizes. -/
theorem ht_teardown_cleanup {DATA : Type} (t : smb_ht DATA) (hwf : ht_wf t) :
    (ht_delete_act t).length = t.length ∧
    ht_delete_act t = (ht_entries t).map Prod.snd ∧
    (ht_delete_act (ht_resize t)).Perm (ht_delete_act t) := by
  refine ⟨?_, rfl, ?_⟩
  · rw [ht_delete_act, List.length_map]
    exact hwf.2.2.1.symm
  · exact (ht_resize_entries t).map Prod.snd

/-- Witness for `ht_teardown_cleanup` at the small table. -/
theorem ht_teardown_cleanup_witness :
    (ht_delete_act ht_test_small).length = ht_test_small.length ∧
    ht_delete_act ht_test_small = (ht_entries ht_test_small).map Prod.snd ∧
    (ht_delete_act (ht_resize ht_test_small)).Perm (ht_delete_act ht_test_small) :=
  ht_teardown_cleanup ht_test_small (by decide)

/-! ## C8: construction -/

/-- Claim C8: table construction takes both a hash function reference and
a compare function reference as mandatory parameters; on success it
returns a table whose bucket array has the fixed initial prime capacity
257 with all slots empty and length 0 (and which stores exactly the two
supplied functions); if the bucket array cannot be allocated, an
allocation error is reported and no table instance is returned. -/
theorem ht_create_spec {DATA : Type} (hash : DATA → Nat) (comp : DATA → DATA → Int) :
    @ht_create DATA hash comp false = (none, SMB_ALLOCATION_ERROR) ∧
    ∃ t0 : smb_ht DATA, ht_create hash comp true = (some t0, SMB_SUCCESS) ∧
      t0.allocated = HASH_TABLE_INITIAL_SIZE ∧ t0.length = 0 ∧
      t0.hash = hash ∧ t0.comp = comp ∧
      (∀ i, ht_bucket t0 i = []) ∧ ht_wf t0 := by
  refine ⟨rfl, ?_⟩
  obtain ⟨t0, hcr, hwf0, hh0, hc0, hl0, ha0, he0, htl0, hb0⟩ := ht_create_table hash comp
  exact ⟨t0, hcr, ha0, hl0, hh0, hc0, hb0, hwf0⟩

/-! ## C9: growth failure is non-fatal -/

/-- Claim C9: if the opportunistic bucket-array growth that follows a
successful new-key `ht_insert` fails to allocate the larger array, the
operation reports an allocation error but does not roll back the
insert: the newly inserted key/value pair remains present and
retrievable, the old capacity is kept, the length still counts the new
entry, and a subsequent new-key insert (with allocation succeeding)
performs the growth. -/
theorem ht_growth_failure_nonfatal {DATA : Type} (t : smb_ht DATA) (key value : DATA)
    (hwf : ht_wf t) (hrefl : t.comp key key = 0)
    (hnew : ∀ e ∈ ht_entries t, t.comp key e.1 ≠ 0)
    (htrig : t.length + 1 > 1 + 7 * t.allocated / 10) :
    (ht_insert t key value true false).2 = SMB_ALLOCATION_ERROR ∧
    (ht_insert t key value true false).1.allocated = t.allocated ∧
    (ht_insert t key value true false).1.length = t.length + 1 ∧
    ht_get (ht_insert t key value true false).1 key = (some value, SMB_SUCCESS) ∧
    (∀ key2 value2,
      ht_contains (ht_insert t key value true false).1 key2 = false →
      (ht_insert (ht_insert t key value true false).1 key2 value2 true true).1.allocated
        > t.allocated) := by
  have hcont : ht_contains t key = false := ht_not_contains t key hnew
  obtain ⟨hwf1, hhash1, hcomp1, hlen1, hent1, halloc⟩ :=
    ht_insert_new_spec t key value false hwf hcont
  rw [if_pos htrig] at halloc
  have halloc2 : (ht_insert t key value true false).1.allocated = t.allocated ∧
      (ht_insert t key value true false).2 = SMB_ALLOCATION_ERROR := halloc
  refine ⟨halloc2.2, halloc2.1, hlen1, ?_, ?_⟩
  · apply ht_get_of_unique _ key value hwf1
    · exact (hent1.mem_iff).mpr (List.mem_cons_self _ _)
    · rw [hcomp1]
      exact hrefl
    · intro e he hce
      rcases List.mem_cons.mp ((hent1.mem_iff).mp he) with h1 | h1
      · exact h1
      · rw [hcomp1] at hce
        exact absurd hce (hnew e h1)
  · intro key2 value2 hc2
    obtain ⟨hwf2, hhash2, hcomp2, hlen2, hent2, halloc3⟩ :=
      ht_insert_new_spec _ key2 value2 true hwf1 hc2
    have htrig2 : (ht_insert t key value true false).1.length + 1 >
        1 + 7 * (ht_insert t key value true false).1.allocated / 10 := by
      rw [hlen1, halloc2.1]
      omega
    rw [if_pos htrig2] at halloc3
    have h3 : (ht_insert (ht_insert t key value true false).1 key2 value2 true true).1.allocated
        = 2 * (ht_insert t key value true false).1.allocated + 1 := halloc3.1
    rw [h3, halloc2.1]
    omega

/-- Witness for `ht_growth_failure_nonfatal` at the two-bucket table. -/
theorem ht_growth_failure_nonfatal_witness :
    (ht_insert ht_test_full 2 9 true false).2 = SMB_ALLOCATION_ERROR ∧
    (ht_insert ht_test_full 2 9 true false).1.allocated = ht_test_full.allocated ∧
    (ht_insert ht_test_full 2 9 true false).1.length = ht_test_full.length + 1 ∧
    ht_get (ht_insert ht_test_full 2 9 true false).1 2 = (some 9, SMB_SUCCESS) ∧
    (∀ key2 value2,
      ht_contains (ht_insert ht_test_full 2 9 true false).1 key2 = false →
      (ht_insert (ht_insert ht_test_full 2 9 true false).1 key2 value2 true true).1.allocated
        > ht_test_full.allocated) :=
  ht_growth_failure_nonfatal ht_test_full 2 9 (by decide) (by decide) (by decide)
    (by decide)
